import Mathlib

/-!
Verification of the mckio package: simulated readers (`Rstrings`, `Rchan`)
and the file-output capture subsystem (`FileCaptureStart` and its worker
goroutines), embedded shallowly.

Go strings are immutable byte sequences (`[]byte(s)` indexes raw bytes),
so they are modelled as `List Nat`.
-/

/-- A Go string / byte slice: a finite sequence of bytes. -/
abbrev GoStr := List Nat

/-!
## Rstrings (mckio.go / part_000, identical in both revisions)

State of the string-list reader.  The two hook closures (`blockBefore`,
`block`) are opaque side effects; each `Read` reports whether it invoked
them via flags in the result.
-/

/-- The cursor/data state of Go's `Rstrings` struct. -/
structure Rstrings where
  lcur : Nat
  ccur : Nat
  dcur : Nat
  list : List GoStr
  delim : GoStr
deriving DecidableEq, Repr

/-- Result of one `Rstrings.Read` call: the returned count `n`, the bytes
written into `p` (in order), whether the returned error is `io.EOF`
(`eof = true`) or `nil`, whether the `blockBefore` hook ran (`preFired`),
whether the end `block` hook ran (`endFired`), and the post state. -/
structure ReadResult where
  n : Nat
  out : GoStr
  eof : Bool
  preFired : Bool
  endFired : Bool
  st : Rstrings
deriving DecidableEq, Repr

/-- Output of one inner copy loop of `Rstrings.Read`
(`for ; m.ccur < len(...); m.ccur++ { if pi < len(p) {...} else return }`),
operating on the unread suffix of the element (resp. delimiter):
the bytes written, the final `pi`, and whether the loop returned early
because the buffer was full (Go's mid-loop `return len(p), nil`). -/
structure SegOut where
  out : GoStr
  pi : Nat
  full : Bool
deriving DecidableEq, Repr

/-- The inner copy loop of `Rstrings.Read` over the unread suffix `rest`
of the current element or delimiter. -/
def copyFrom (rest : GoStr) (pi plen : Nat) : SegOut :=
  match rest with
  | [] => ⟨[], pi, false⟩
  | b :: bs =>
    if pi < plen then
      let r := copyFrom bs (pi + 1) plen
      ⟨b :: r.out, r.pi, r.full⟩
    else ⟨[], pi, true⟩

/-- Output of the outer `for ; m.lcur < len(m.list); m.lcur++` loop of
`Rstrings.Read`, run on the suffix `m.list.drop m.lcur`: bytes written,
the number of elements fully passed (`adv`, the increase of `lcur`),
the final `ccur`, `dcur`, `pi`, and whether the call returned early
with a full buffer. -/
structure LoopOut where
  out : GoStr
  adv : Nat
  ccur : Nat
  dcur : Nat
  pi : Nat
  full : Bool
deriving DecidableEq, Repr

/-- The outer loop of `Rstrings.Read`: drain the current element from
`ccur`, then the delimiter from `dcur`; on completing both, reset
`dcur = 0`, `ccur = 0` and advance to the next element. -/
def readGo (elems : List GoStr) (delim : GoStr) (ccur dcur pi plen : Nat) : LoopOut :=
  match elems with
  | [] => ⟨[], 0, ccur, dcur, pi, false⟩
  | e :: rest =>
    let r1 := copyFrom (e.drop ccur) pi plen
    if r1.full then ⟨r1.out, 0, ccur + r1.out.length, dcur, r1.pi, true⟩
    else
      let r2 := copyFrom (delim.drop dcur) r1.pi plen
      if r2.full then
        ⟨r1.out ++ r2.out, 0, ccur + r1.out.length, dcur + r2.out.length, r2.pi, true⟩
      else
        let r3 := readGo rest delim 0 0 r2.pi plen
        ⟨r1.out ++ (r2.out ++ r3.out), r3.adv + 1, r3.ccur, r3.dcur, r3.pi, r3.full⟩

/-- `func (m *Rstrings) Read(p []byte) (int, error)` with `plen = len(p)`.
The zero-length check precedes the `blockBefore` hook; after the loop,
`pi < 1` invokes the end `block` hook and returns `(0, io.EOF)`. -/
def Rstrings.Read (m : Rstrings) (plen : Nat) : ReadResult :=
  if plen = 0 then ⟨0, [], false, false, false, m⟩
  else
    let r := readGo (m.list.drop m.lcur) m.delim m.ccur m.dcur 0 plen
    let st : Rstrings := ⟨m.lcur + r.adv, r.ccur, r.dcur, m.list, m.delim⟩
    if r.pi < 1 then ⟨0, r.out, true, true, true, st⟩
    else ⟨r.pi, r.out, false, true, false, st⟩

/-- `NewRstrings`: zeroed cursors; `delim = []` models an absent
`BehaviorDelimer` (Go `nil` slice has length 0). -/
def NewRstrings (list : List GoStr) (delim : GoStr) : Rstrings :=
  ⟨0, 0, 0, list, delim⟩

/-- The full byte stream an `Rstrings` reader produces from scratch:
every element followed by the delimiter. -/
def fullFrom (list : List GoStr) (delim : GoStr) : GoStr :=
  (list.map (fun e => e ++ delim)).flatten

/-- The stream left to produce, given the element suffix not yet fully
consumed and the current intra-element / intra-delimiter cursors. -/
def remFrom (elems : List GoStr) (delim : GoStr) (ccur dcur : Nat) : GoStr :=
  match elems with
  | [] => []
  | e :: rest => e.drop ccur ++ delim.drop dcur ++ fullFrom rest delim

/-- The unread-byte stream denoted by the cursor triple of a state. -/
def Rstrings.remaining (m : Rstrings) : GoStr :=
  remFrom (m.list.drop m.lcur) m.delim m.ccur m.dcur

/-- Driver: perform one `Read` per requested buffer length, returning the
concatenated bytes, the `eof` statuses in order, and the final state. -/
def drive (m : Rstrings) : List Nat → GoStr × List Bool × Rstrings
  | [] => ([], [], m)
  | c :: cs =>
    let r := m.Read c
    let d := drive r.st cs
    (r.out ++ d.1, r.eof :: d.2.1, d.2.2)

/-!
## Rchan (mckio.go / part_000, identical in both revisions)

The source channel is modelled by the list of string messages still to be
received plus a flag saying whether the channel is closed after them.
Receiving from a closed Go channel yields the zero value `""` with
`ok = false`.  A `Read` that would block forever (empty, unclosed channel
and nothing pending) is `none`.
-/

/-- The state of Go's `Rchan` struct plus the modelled channel contents. -/
structure Rchan where
  sCur : GoStr
  spos : Nat
  chan : List GoStr
  closed : Bool
deriving DecidableEq, Repr

/-- Result of one non-blocking `Rchan.Read` call. -/
structure RchanResult where
  n : Nat
  out : GoStr
  eof : Bool
  st : Rchan
deriving DecidableEq, Repr

/-- The `for { ... }` loop of `Rchan.Read`.  Each iteration enters with
`ip = 0` (a positive `ip` returns immediately), copies
`min (len(sCur) - spos) plen` bytes from the pending string, and
otherwise receives the next message (or observes closure). -/
def rchanLoop (sCur : GoStr) (spos : Nat) (chan : List GoStr) (closed : Bool)
    (plen : Nat) : Option RchanResult :=
  let k := min (sCur.length - spos) plen
  if 0 < k then
    some ⟨k, (sCur.drop spos).take plen, false, ⟨sCur, spos + k, chan, closed⟩⟩
  else
    match chan with
    | msg :: rest => rchanLoop msg 0 rest closed plen
    | [] =>
        if closed then some ⟨0, [], true, ⟨[], spos, [], true⟩⟩
        else none

/-- `func (rc *Rchan) Read(p []byte) (int, error)` with `plen = len(p)`. -/
def Rchan.Read (rc : Rchan) (plen : Nat) : Option RchanResult :=
  if plen = 0 then some ⟨0, [], false, rc⟩
  else rchanLoop rc.sCur rc.spos rc.chan rc.closed plen

/-- `NewChan` over a channel with the given future messages/closure. -/
def NewChan (chan : List GoStr) (closed : Bool) : Rchan :=
  ⟨[], 0, chan, closed⟩

/-- An `Rchan` that has observed its source channel closed: pending string
is the zero value `""`, no messages remain, channel closed. -/
def Rchan.exhausted (rc : Rchan) : Prop :=
  rc.sCur = [] ∧ rc.chan = [] ∧ rc.closed = true

instance (rc : Rchan) : Decidable rc.exhausted := by
  unfold Rchan.exhausted; infer_instance

/-!
## The capture subsystem (part_000: `FileCaptureStart`, `ctrlCapture`,
`wfilePipe`, `wfileCapture`, `cvrtToStringChan`)

`FileCaptureStart` itself runs sequentially in the caller's goroutine:
connect to the control bus, build `captureEnd` (`ctrlCapture`), connect
to the data bus, create the OS pipe — returning the error with no other
effect if that fails — then overwrite `*osf` with the pipe write end and
launch the `wfilePipe` and `cvrtToStringChan` goroutines (which in turn
launch `wfileCapture`).
-/

/-- The two values the caller's sink slot `*osf` can hold during a
session: the original file, or the pipe write end installed by capture. -/
inductive FileVal
  | original
  | pipeW
deriving DecidableEq, Repr

/-- The goroutines `FileCaptureStart` launches directly. -/
inductive GoroutineId
  | wfilePipeG
  | cvrtToStringChanG
deriving DecidableEq, Repr

/-- Caller-visible state mutated by `FileCaptureStart` itself: the sink
slot, the goroutines launched so far, and whether the public `out`
channel has been created. -/
structure GoState where
  osf : FileVal
  goroutines : List GoroutineId
  outChanMade : Bool
deriving DecidableEq, Repr

/-- Sequential effects of `FileCaptureStart` (part_000 revision).  The
outcome of the `os.Pipe()` call is passed in: `.error e` for a failed
pipe creation (Go `errp != nil`), `.ok` for success.  Returns the
updated state and the returned `err` value (`some e` iff non-nil).
The bus `SenderConnect`/`ReceiverConnect` calls allocate only local
handles and mutate none of the modelled state. -/
def FileCaptureStart (ε : Type) (s : GoState) (pipeRes : Except ε (Unit × Unit)) :
    GoState × Option ε :=
  match pipeRes with
  | .error e => (s, some e)
  | .ok _ =>
      let s1 : GoState := { s with osf := .pipeW }
      let s2 : GoState := { s1 with goroutines := s1.goroutines ++ [.wfilePipeG] }
      let s3 : GoState :=
        { s2 with outChanMade := true, goroutines := s2.goroutines ++ [.cvrtToStringChanG] }
      (s3, none)

/-!
### Transition system for a running capture session

One program counter per concurrent unit, mirroring part_000:

* caller — writes its bytes to the redirected sink, then runs
  `captureEnd` (`ctrlCapture`): two rendezvous sends on the control bus,
  then disconnect;
* `wfilePipe` — first receive, `wrt.Close()`, `*osf = file`, second
  receive;
* `wfileCapture` — `io.Copy` until EOF, `rdr.Close()`, send the buffer
  on the data bus iff non-empty, disconnect (deferred `dscnnt`);
* `cvrtToStringChan` — forward each data-bus payload to `out`, then
  `close(out)` when the data bus is closed.

Bus sends are synchronous rendezvous, so a send and its matching receive
form one joint step.
-/

/-- Caller program counter. -/
inductive CallerPC
  | writing
  | send1
  | send2
  | disc
  | done
deriving DecidableEq, Repr

/-- `wfilePipe` program counter. -/
inductive PipePC
  | wait1
  | closing
  | restore
  | wait2
  | done
deriving DecidableEq, Repr

/-- `wfileCapture` program counter. -/
inductive CopyPC
  | copying
  | closeRdr
  | sending
  | disc
  | done
deriving DecidableEq, Repr

/-- `cvrtToStringChan` program counter; `fwd s` holds a payload received
from the data bus and not yet sent on `out`. -/
inductive RelayPC
  | recv
  | fwd (s : GoStr)
  | close
  | done
deriving DecidableEq, Repr

/-- Global configuration of a capture session after a successful start. -/
structure Config where
  toWrite : List GoStr
  buffered : GoStr
  wrtClosed : Bool
  rdrClosed : Bool
  osf : FileVal
  buf : GoStr
  dataClosed : Bool
  ctrlClosed : Bool
  outTrace : List GoStr
  outClosed : Bool
  caller : CallerPC
  pipe : PipePC
  copy : CopyPC
  relay : RelayPC
deriving DecidableEq, Repr

/-- State right after `FileCaptureStart` returned successfully: the sink
slot holds the pipe write end, all tasks at their entry points, and the
caller about to write `chunks` to the redirected sink. -/
def initConfig (chunks : List GoStr) : Config :=
  ⟨chunks, [], false, false, .pipeW, [], false, false, [], false,
    .writing, .wait1, .copying, .recv⟩

/-- One interleaving step of the session. -/
inductive Step : Config → Config → Prop
  | write (c : Config) (ch : GoStr) (rest : List GoStr) :
      c.caller = .writing → c.toWrite = ch :: rest →
      Step c { c with toWrite := rest, buffered := c.buffered ++ ch }
  | writeDone (c : Config) :
      c.caller = .writing → c.toWrite = [] →
      Step c { c with caller := .send1 }
  | stop1 (c : Config) :
      c.caller = .send1 → c.pipe = .wait1 →
      Step c { c with caller := .send2, pipe := .closing }
  | closeWrt (c : Config) :
      c.pipe = .closing →
      Step c { c with wrtClosed := true, pipe := .restore }
  | restoreOsf (c : Config) :
      c.pipe = .restore →
      Step c { c with osf := .original, pipe := .wait2 }
  | stop2 (c : Config) :
      c.caller = .send2 → c.pipe = .wait2 →
      Step c { c with caller := .disc, pipe := .done }
  | ctrlDisc (c : Config) :
      c.caller = .disc →
      Step c { c with ctrlClosed := true, caller := .done }
  | copyChunk (c : Config) :
      c.copy = .copying → c.buffered ≠ [] →
      Step c { c with buf := c.buf ++ c.buffered, buffered := [] }
  | copyEOF (c : Config) :
      c.copy = .copying → c.buffered = [] → c.wrtClosed = true →
      Step c { c with copy := .closeRdr }
  | closeRdr (c : Config) :
      c.copy = .closeRdr →
      Step c { c with rdrClosed := true, copy := .sending }
  | sendPayload (c : Config) :
      c.copy = .sending → c.buf ≠ [] → c.relay = .recv →
      Step c { c with copy := .disc, relay := .fwd c.buf }
  | skipSend (c : Config) :
      c.copy = .sending → c.buf = [] →
      Step c { c with copy := .disc }
  | dataDisc (c : Config) :
      c.copy = .disc →
      Step c { c with dataClosed := true, copy := .done }
  | relayFwd (c : Config) (s : GoStr) :
      c.relay = .fwd s →
      Step c { c with outTrace := c.outTrace ++ [s], relay := .recv }
  | relayClosed (c : Config) :
      c.relay = .recv → c.dataClosed = true →
      Step c { c with relay := .close }
  | relayClose (c : Config) :
      c.relay = .close →
      Step c { c with outClosed := true, relay := .done }

/-- Configurations reachable from the post-start state with pending
writes `chunks`. -/
def Reachable (chunks : List GoStr) (c : Config) : Prop :=
  Relation.ReflTransGen Step (initConfig chunks) c

/-- All four concurrent units have terminated. -/
def Config.terminated (c : Config) : Prop :=
  c.caller = .done ∧ c.pipe = .done ∧ c.copy = .done ∧ c.relay = .done

/-- Inductive invariant of the capture session, for total written
payload `B` (the concatenation of the caller's write chunks). -/
structure SessionInv (B : GoStr) (c : Config) : Prop where
  conserv : c.buf ++ c.buffered ++ c.toWrite.flatten = B
  cw1 : (c.caller = .writing ∨ c.caller = .send1) ↔ c.pipe = .wait1
  cw2 : c.caller = .send2 ↔
      (c.pipe = .closing ∨ c.pipe = .restore ∨ c.pipe = .wait2)
  cw3 : (c.caller = .disc ∨ c.caller = .done) ↔ c.pipe = .done
  twEmpty : c.caller ≠ .writing → c.toWrite = []
  wc : c.wrtClosed = true ↔
      (c.pipe = .restore ∨ c.pipe = .wait2 ∨ c.pipe = .done)
  osfInv : c.osf = .original ↔ (c.pipe = .wait2 ∨ c.pipe = .done)
  copyPre : c.copy ≠ .copying → c.buffered = [] ∧ c.wrtClosed = true
  bufFull : c.copy ≠ .copying → c.buf = B
  dc : c.dataClosed = true ↔ c.copy = .done
  relayLate : (c.relay = .close ∨ c.relay = .done) → c.copy = .done
  emptyCase : B = [] → (∀ s, c.relay ≠ .fwd s) ∧ c.outTrace = []
  earlyRelay : B ≠ [] →
      (c.copy = .copying ∨ c.copy = .closeRdr ∨ c.copy = .sending) →
      c.relay = .recv ∧ c.outTrace = []
  lateRelay : B ≠ [] → (c.copy = .disc ∨ c.copy = .done) →
      ((c.relay = .fwd B ∧ c.outTrace = [])
        ∨ ((∀ s, c.relay ≠ .fwd s) ∧ c.outTrace = [B]))
  oc : c.outClosed = true ↔ c.relay = .done

/-- A concrete one-chunk write payload, for exercising the session. -/
def chunksW : List GoStr := [[65]]

/-- The fully terminated configuration a session over `chunksW` reaches. -/
def cfgDone : Config :=
  ⟨[], [], true, true, .original, [65], true, true, [[65]], true,
    .done, .done, .done, .done⟩

/-!
## Lemmas about `Rstrings.Read`
-/

lemma take_append_drop_len {α : Type} (l : List α) (n : Nat) :
    l.take n ++ l.drop (l.take n).length = l := by
  rcases le_total n l.length with h | h
  · rw [List.length_take, min_eq_left h, List.take_append_drop]
  · rw [List.take_of_length_le h, List.drop_of_length_le (le_refl _)]
    simp

lemma copyFrom_eq (rest : GoStr) (pi plen : Nat) :
    copyFrom rest pi plen =
      ⟨rest.take (plen - pi), pi + min rest.length (plen - pi),
        decide (plen - pi < rest.length)⟩ := by
  induction rest generalizing pi with
  | nil => simp [copyFrom]
  | cons b bs ih =>
    rw [copyFrom]
    by_cases h : pi < plen
    · rw [if_pos h, ih]
      have h1 : plen - pi = (plen - (pi + 1)) + 1 := by omega
      simp only [SegOut.mk.injEq]
      refine ⟨by rw [h1, List.take_succ_cons], by simp; omega, ?_⟩
      rw [decide_eq_decide]
      simp only [List.length_cons]
      omega
    · rw [if_neg h]
      have h0 : plen - pi = 0 := by omega
      simp [h0]

lemma drop_add_split {α : Type} (l : List α) (a b : Nat) :
    l.drop (a + b) = (l.drop a).drop b :=
  (List.drop_drop b a l).symm

lemma fullFrom_cons (e : GoStr) (rest : List GoStr) (delim : GoStr) :
    fullFrom (e :: rest) delim = e ++ delim ++ fullFrom rest delim := by
  simp [fullFrom]

lemma remFrom_cons (e : GoStr) (rest : List GoStr) (delim : GoStr) (ccur dcur : Nat) :
    remFrom (e :: rest) delim ccur dcur
      = e.drop ccur ++ (delim.drop dcur ++ fullFrom rest delim) := by
  simp [remFrom]

lemma remFrom_zero (elems : List GoStr) (delim : GoStr) :
    remFrom elems delim 0 0 = fullFrom elems delim := by
  cases elems with
  | nil => simp [remFrom, fullFrom]
  | cons e rest => simp [remFrom, fullFrom_cons]

lemma readGo_spec (elems : List GoStr) (delim : GoStr) (ccur dcur pi plen : Nat)
    (hpi : pi ≤ plen) :
    (readGo elems delim ccur dcur pi plen).out ++
        remFrom (elems.drop (readGo elems delim ccur dcur pi plen).adv) delim
          (readGo elems delim ccur dcur pi plen).ccur
          (readGo elems delim ccur dcur pi plen).dcur
      = remFrom elems delim ccur dcur
    ∧ (readGo elems delim ccur dcur pi plen).pi
        = pi + (readGo elems delim ccur dcur pi plen).out.length
    ∧ (readGo elems delim ccur dcur pi plen).pi ≤ plen
    ∧ ((readGo elems delim ccur dcur pi plen).full = true →
        (readGo elems delim ccur dcur pi plen).pi = plen)
    ∧ ((readGo elems delim ccur dcur pi plen).full = false →
        remFrom (elems.drop (readGo elems delim ccur dcur pi plen).adv) delim
          (readGo elems delim ccur dcur pi plen).ccur
          (readGo elems delim ccur dcur pi plen).dcur = []) := by
  induction elems generalizing ccur dcur pi with
  | nil =>
    refine ⟨?_, ?_, hpi, ?_, ?_⟩ <;> simp [readGo, remFrom]
  | cons e rest ih =>
    rw [readGo]
    simp only [copyFrom_eq, decide_eq_true_eq]
    by_cases h1 : plen - pi < (e.drop ccur).length
    · -- first copy loop fills the buffer and returns early
      rw [if_pos h1]
      refine ⟨?_, ?_, ?_, ?_, ?_⟩
      · show ((e.drop ccur).take (plen - pi)) ++
            remFrom ((e :: rest).drop 0) delim
              (ccur + ((e.drop ccur).take (plen - pi)).length) dcur
          = remFrom (e :: rest) delim ccur dcur
        rw [List.drop_zero, remFrom_cons, remFrom_cons, drop_add_split,
          ← List.append_assoc, take_append_drop_len]
      · show pi + min (e.drop ccur).length (plen - pi)
            = pi + ((e.drop ccur).take (plen - pi)).length
        rw [List.length_take]; omega
      · show pi + min (e.drop ccur).length (plen - pi) ≤ plen
        omega
      · intro _
        show pi + min (e.drop ccur).length (plen - pi) = plen
        omega
      · intro hfalse
        simp at hfalse
    · -- first copy loop drains the element suffix completely
      rw [if_neg h1]
      have he1 : (e.drop ccur).take (plen - pi) = e.drop ccur :=
        List.take_of_length_le (by omega)
      have hmin1 : min (e.drop ccur).length (plen - pi) = (e.drop ccur).length := by omega
      rw [he1, hmin1]
      set pi1 := pi + (e.drop ccur).length with hpi1
      have hpi1le : pi1 ≤ plen := by omega
      have hde : e.drop (ccur + (e.drop ccur).length) = [] := by
        rw [drop_add_split, List.drop_length]
      by_cases h2 : plen - pi1 < (delim.drop dcur).length
      · -- second copy loop fills the buffer and returns early
        rw [if_pos h2]
        refine ⟨?_, ?_, ?_, ?_, ?_⟩
        · show (e.drop ccur ++ (delim.drop dcur).take (plen - pi1)) ++
              remFrom ((e :: rest).drop 0) delim (ccur + (e.drop ccur).length)
                (dcur + ((delim.drop dcur).take (plen - pi1)).length)
            = remFrom (e :: rest) delim ccur dcur
          rw [List.drop_zero, remFrom_cons, remFrom_cons, hde, drop_add_split delim,
            List.nil_append, List.append_assoc,
            ← List.append_assoc ((delim.drop dcur).take (plen - pi1)), take_append_drop_len]
        · show pi1 + min (delim.drop dcur).length (plen - pi1)
              = pi + (e.drop ccur ++ (delim.drop dcur).take (plen - pi1)).length
          simp only [List.length_append, List.length_take]
          omega
        · show pi1 + min (delim.drop dcur).length (plen - pi1) ≤ plen
          omega
        · intro _
          show pi1 + min (delim.drop dcur).length (plen - pi1) = plen
          omega
        · intro hfalse
          simp at hfalse
      · -- both loops drained: advance to the next element
        rw [if_neg h2]
        have he2 : (delim.drop dcur).take (plen - pi1) = delim.drop dcur :=
          List.take_of_length_le (by omega)
        have hmin2 : min (delim.drop dcur).length (plen - pi1)
            = (delim.drop dcur).length := by omega
        rw [he2, hmin2]
        set pi2 := pi1 + (delim.drop dcur).length with hpi2
        have hpi2le : pi2 ≤ plen := by omega
        obtain ⟨ih1, ih2, ih3, ih4, ih5⟩ := ih 0 0 pi2 hpi2le
        refine ⟨?_, ?_, ih3, ih4, ?_⟩
        · show (e.drop ccur ++ (delim.drop dcur ++ (readGo rest delim 0 0 pi2 plen).out)) ++
              remFrom ((e :: rest).drop ((readGo rest delim 0 0 pi2 plen).adv + 1)) delim
                (readGo rest delim 0 0 pi2 plen).ccur (readGo rest delim 0 0 pi2 plen).dcur
            = remFrom (e :: rest) delim ccur dcur
          rw [List.drop_succ_cons, remFrom_cons, List.append_assoc, List.append_assoc,
            ih1, remFrom_zero]
        · show (readGo rest delim 0 0 pi2 plen).pi
            = pi + (e.drop ccur ++
                (delim.drop dcur ++ (readGo rest delim 0 0 pi2 plen).out)).length
          simp only [List.length_append]
          omega
        · intro hf
          show remFrom ((e :: rest).drop ((readGo rest delim 0 0 pi2 plen).adv + 1)) delim
              (readGo rest delim 0 0 pi2 plen).ccur (readGo rest delim 0 0 pi2 plen).dcur = []
          rw [List.drop_succ_cons]
          exact ih5 hf

lemma Read_zero (m : Rstrings) : m.Read 0 = ⟨0, [], false, false, false, m⟩ := by
  simp [Rstrings.Read]

lemma Read_spec (m : Rstrings) (plen : Nat) (h : plen ≠ 0) :
    (m.Read plen).out ++ (m.Read plen).st.remaining = m.remaining
    ∧ (m.Read plen).st.list = m.list
    ∧ (m.Read plen).st.delim = m.delim
    ∧ (m.Read plen).n = (m.Read plen).out.length
    ∧ ((m.Read plen).eof = true ↔ (m.Read plen).out = [])
    ∧ ((m.Read plen).endFired = true ↔ (m.Read plen).out = [])
    ∧ (m.Read plen).preFired = true
    ∧ ((m.Read plen).out = [] → (m.Read plen).st.remaining = []) := by
  obtain ⟨s1, s2, s3, s4, s5⟩ :=
    readGo_spec (m.list.drop m.lcur) m.delim m.ccur m.dcur 0 plen (Nat.zero_le _)
  unfold Rstrings.Read
  rw [if_neg h]
  by_cases hp : (readGo (m.list.drop m.lcur) m.delim m.ccur m.dcur 0 plen).pi < 1
  · rw [if_pos hp]
    have hout : (readGo (m.list.drop m.lcur) m.delim m.ccur m.dcur 0 plen).out = [] := by
      apply List.length_eq_zero.mp
      omega
    have hfull : (readGo (m.list.drop m.lcur) m.delim m.ccur m.dcur 0 plen).full = false := by
      rcases Bool.eq_false_or_eq_true
          (readGo (m.list.drop m.lcur) m.delim m.ccur m.dcur 0 plen).full with hf | hf
      · have := s4 hf; omega
      · exact hf
    refine ⟨?_, rfl, rfl, by simp [hout], by simp [hout], by simp [hout], rfl, fun _ => ?_⟩
    · show (readGo (m.list.drop m.lcur) m.delim m.ccur m.dcur 0 plen).out ++
          remFrom (m.list.drop (m.lcur +
              (readGo (m.list.drop m.lcur) m.delim m.ccur m.dcur 0 plen).adv)) m.delim
            (readGo (m.list.drop m.lcur) m.delim m.ccur m.dcur 0 plen).ccur
            (readGo (m.list.drop m.lcur) m.delim m.ccur m.dcur 0 plen).dcur
        = m.remaining
      rw [drop_add_split]
      exact s1
    · show remFrom (m.list.drop (m.lcur +
            (readGo (m.list.drop m.lcur) m.delim m.ccur m.dcur 0 plen).adv)) m.delim
          (readGo (m.list.drop m.lcur) m.delim m.ccur m.dcur 0 plen).ccur
          (readGo (m.list.drop m.lcur) m.delim m.ccur m.dcur 0 plen).dcur = []
      rw [drop_add_split]
      exact s5 hfull
  · rw [if_neg hp]
    have hout : (readGo (m.list.drop m.lcur) m.delim m.ccur m.dcur 0 plen).out ≠ [] := by
      intro hnil
      rw [hnil] at s2
      simp at s2
      omega
    have hn : (readGo (m.list.drop m.lcur) m.delim m.ccur m.dcur 0 plen).pi
        = (readGo (m.list.drop m.lcur) m.delim m.ccur m.dcur 0 plen).out.length := by
      omega
    refine ⟨?_, rfl, rfl, hn, by simp [hout], by simp [hout], rfl,
      fun hnil => absurd hnil hout⟩
    · show (readGo (m.list.drop m.lcur) m.delim m.ccur m.dcur 0 plen).out ++
          remFrom (m.list.drop (m.lcur +
              (readGo (m.list.drop m.lcur) m.delim m.ccur m.dcur 0 plen).adv)) m.delim
            (readGo (m.list.drop m.lcur) m.delim m.ccur m.dcur 0 plen).ccur
            (readGo (m.list.drop m.lcur) m.delim m.ccur m.dcur 0 plen).dcur
        = m.remaining
      rw [drop_add_split]
      exact s1

lemma Read_decompose (m : Rstrings) (plen : Nat) :
    (m.Read plen).out ++ (m.Read plen).st.remaining = m.remaining
    ∧ (m.Read plen).st.list = m.list ∧ (m.Read plen).st.delim = m.delim := by
  by_cases h : plen = 0
  · subst h
    rw [Read_zero]
    exact ⟨rfl, rfl, rfl⟩
  · obtain ⟨s1, s2, s3, _⟩ := Read_spec m plen h
    exact ⟨s1, s2, s3⟩

lemma Read_exhausted (m : Rstrings) (plen : Nat) (hex : m.list.length ≤ m.lcur)
    (h : plen ≠ 0) : m.Read plen = ⟨0, [], true, true, true, m⟩ := by
  unfold Rstrings.Read
  rw [if_neg h, List.drop_of_length_le hex]
  rfl

lemma remaining_of_exhausted (m : Rstrings) (hex : m.list.length ≤ m.lcur) :
    m.remaining = [] := by
  unfold Rstrings.remaining
  rw [List.drop_of_length_le hex]
  rfl

lemma Read_sticky_eof (m : Rstrings) (plen : Nat) (hrem : m.remaining = [])
    (h : plen ≠ 0) :
    (m.Read plen).n = 0 ∧ (m.Read plen).out = [] ∧ (m.Read plen).eof = true
    ∧ (m.Read plen).st.remaining = [] := by
  obtain ⟨s1, _, _, s4, s5, _, _, s8⟩ := Read_spec m plen h
  have hout : (m.Read plen).out = [] := by
    have hlen := congrArg List.length s1
    rw [hrem] at hlen
    simp at hlen
    exact hlen.1
  refine ⟨by rw [s4, hout]; rfl, hout, s5.mpr hout, s8 hout⟩

lemma Read_ok_of_nonempty (m : Rstrings) (plen : Nat) (hrem : m.remaining ≠ [])
    (h : plen ≠ 0) :
    (m.Read plen).out ≠ [] ∧ (m.Read plen).eof = false ∧ (m.Read plen).endFired = false := by
  obtain ⟨s1, _, _, _, s5, s6, _, s8⟩ := Read_spec m plen h
  have hout : (m.Read plen).out ≠ [] := by
    intro hnil
    have := s8 hnil
    rw [hnil, this] at s1
    exact hrem s1.symm
  refine ⟨hout, ?_, ?_⟩
  · rcases Bool.eq_false_or_eq_true (m.Read plen).eof with hf | hf
    · exact absurd (s5.mp hf) hout
    · exact hf
  · rcases Bool.eq_false_or_eq_true (m.Read plen).endFired with hf | hf
    · exact absurd (s6.mp hf) hout
    · exact hf

lemma drive_prepend (m : Rstrings) (caps : List Nat) :
    (drive m caps).1 ++ (drive m caps).2.2.remaining = m.remaining := by
  induction caps generalizing m with
  | nil => simp [drive]
  | cons c cs ih =>
    simp only [drive]
    rw [List.append_assoc, ih, (Read_decompose m c).1]

lemma NewRstrings_remaining (l : List GoStr) (delim : GoStr) :
    (NewRstrings l delim).remaining = fullFrom l delim := by
  show remFrom (l.drop 0) delim 0 0 = fullFrom l delim
  rw [List.drop_zero, remFrom_zero]

/-!
## Lemmas about `Rchan.Read`
-/

lemma rchanLoop_spec (chan : List GoStr) :
    ∀ (sCur : GoStr) (spos : Nat) (closed : Bool) (plen : Nat) (r : RchanResult),
    rchanLoop sCur spos chan closed plen = some r →
    (r.eof = true →
        r.n = 0 ∧ r.out = [] ∧ r.st.sCur = [] ∧ r.st.chan = [] ∧ r.st.closed = true)
    ∧ (r.eof = false → 0 < r.n) := by
  induction chan with
  | nil =>
    intro sCur spos closed plen r hr
    simp only [rchanLoop] at hr
    by_cases hk : 0 < min (sCur.length - spos) plen
    · rw [if_pos hk] at hr
      simp only [Option.some.injEq] at hr
      subst hr
      exact ⟨fun heof => by simp at heof, fun _ => hk⟩
    · rw [if_neg hk] at hr
      cases closed with
      | false => simp at hr
      | true =>
        simp only [if_true, Option.some.injEq] at hr
        subst hr
        exact ⟨fun _ => ⟨rfl, rfl, rfl, rfl, rfl⟩, fun hf => by simp at hf⟩
  | cons msg rest ih =>
    intro sCur spos closed plen r hr
    simp only [rchanLoop] at hr
    by_cases hk : 0 < min (sCur.length - spos) plen
    · rw [if_pos hk] at hr
      simp only [Option.some.injEq] at hr
      subst hr
      exact ⟨fun heof => by simp at heof, fun _ => hk⟩
    · rw [if_neg hk] at hr
      exact ih msg 0 closed plen r hr

/-!
## Claim theorems for the simulated readers
-/

/-- C4: for every non-empty element list and every sequence of `Read` calls
with buffer sizes ≥ 1 that drains the reader, the concatenation of all
bytes returned equals each element followed by the configured delimiter
(the elements alone when `delim = []`), in order; any further `Read`
reports end-of-stream with zero bytes, and the drained condition persists
(so every subsequent `Read` again reports end-of-stream). -/
theorem rstrings_reads_reconstruct_stream (l : List GoStr) (delim : GoStr)
    (caps : List Nat) (_hne : l ≠ []) (_hcaps : ∀ c ∈ caps, 1 ≤ c)
    (hdrained : (drive (NewRstrings l delim) caps).2.2.remaining = []) :
    (drive (NewRstrings l delim) caps).1 = fullFrom l delim
    ∧ ∀ c, 1 ≤ c →
        ((drive (NewRstrings l delim) caps).2.2.Read c).n = 0
        ∧ ((drive (NewRstrings l delim) caps).2.2.Read c).eof = true
        ∧ ((drive (NewRstrings l delim) caps).2.2.Read c).st.remaining = [] := by
  constructor
  · have h := drive_prepend (NewRstrings l delim) caps
    rw [hdrained, List.append_nil, NewRstrings_remaining] at h
    exact h
  · intro c hc
    obtain ⟨w1, w2, w3, w4⟩ :=
      Read_sticky_eof (drive (NewRstrings l delim) caps).2.2 c hdrained
        (Nat.one_le_iff_ne_zero.mp hc)
    exact ⟨w1, w3, w4⟩

/-- C4 witness. -/
theorem rstrings_reads_reconstruct_stream_witness :
    (drive (NewRstrings [[97], [98]] [10]) [3, 3]).1 = fullFrom [[97], [98]] [10]
    ∧ ((drive (NewRstrings [[97], [98]] [10]) [3, 3]).2.2.Read 1).eof = true := by
  have h := rstrings_reads_reconstruct_stream [[97], [98]] [10] [3, 3]
    (by decide) (by decide) (by decide)
  exact ⟨h.1, (h.2 1 (by decide)).2.1⟩

/-- C5: on a `Read` with a non-empty buffer, the end hook fires and
end-of-stream is reported exactly when the call wrote nothing; a call
that wrote bytes while exhausting the element sequence returns them with
an ok status, deferring end-of-stream (and the hook) to the next call. -/
theorem rstrings_defers_eof_when_bytes_written (m : Rstrings) (plen : Nat)
    (h : 1 ≤ plen) :
    ((m.Read plen).endFired = true ↔ (m.Read plen).out = [])
    ∧ ((m.Read plen).eof = true ↔ (m.Read plen).out = [])
    ∧ ((m.Read plen).out ≠ [] →
        (m.Read plen).eof = false ∧ (m.Read plen).endFired = false
        ∧ ((m.Read plen).st.remaining = [] → ∀ c, 1 ≤ c →
            ((m.Read plen).st.Read c).eof = true
            ∧ ((m.Read plen).st.Read c).n = 0)) := by
  have h0 : plen ≠ 0 := Nat.one_le_iff_ne_zero.mp h
  obtain ⟨_, _, _, _, s5, s6, _, _⟩ := Read_spec m plen h0
  refine ⟨s6, s5, fun hout => ⟨?_, ?_, fun hrem c hc => ?_⟩⟩
  · rcases Bool.eq_false_or_eq_true (m.Read plen).eof with hf | hf
    · exact absurd (s5.mp hf) hout
    · exact hf
  · rcases Bool.eq_false_or_eq_true (m.Read plen).endFired with hf | hf
    · exact absurd (s6.mp hf) hout
    · exact hf
  · obtain ⟨w1, _, w3, _⟩ :=
      Read_sticky_eof (m.Read plen).st c hrem (Nat.one_le_iff_ne_zero.mp hc)
    exact ⟨w3, w1⟩

/-- C5 witness. -/
theorem rstrings_defers_eof_when_bytes_written_witness :
    ((NewRstrings [[97]] []).Read 1).eof = false
    ∧ (((NewRstrings [[97]] []).Read 1).st.Read 1).eof = true := by
  have h := rstrings_defers_eof_when_bytes_written (NewRstrings [[97]] []) 1 (by decide)
  have h3 := h.2.2 (by decide)
  exact ⟨h3.1, (h3.2.2 (by decide) 1 (by decide)).1⟩

/-- C8: a `Read` with a zero-length buffer returns `(0, ok)` immediately
on both readers: no hook fires, nothing is received from the source
channel, and the reader state (all cursors included) is unchanged. -/
theorem zero_length_read_noop :
    (∀ m : Rstrings, m.Read 0 = ⟨0, [], false, false, false, m⟩)
    ∧ (∀ rc : Rchan, rc.Read 0 = some ⟨0, [], false, rc⟩) := by
  exact ⟨Read_zero, fun rc => rfl⟩

/-- C9: the cursor triple always denotes the next unread byte of the
element/delimiter stream (the bytes a call emits are exactly the prefix
consumed from that stream), the total consumed position never decreases,
and once the element sequence is exhausted the cursors never move. -/
theorem rstrings_cursor_tracks_next_unread (m : Rstrings) (plen : Nat) :
    (m.Read plen).out ++ (m.Read plen).st.remaining = m.remaining
    ∧ (m.Read plen).st.remaining.length ≤ m.remaining.length
    ∧ (m.list.length ≤ m.lcur → (m.Read plen).st = m) := by
  obtain ⟨p1, _, _⟩ := Read_decompose m plen
  refine ⟨p1, ?_, fun hex => ?_⟩
  · have hlen := congrArg List.length p1
    simp only [List.length_append] at hlen
    omega
  · by_cases h : plen = 0
    · rw [h, Read_zero]
    · rw [Read_exhausted m plen hex h]

/-- C9 witness. -/
theorem rstrings_cursor_tracks_next_unread_witness :
    ((⟨1, 0, 0, [[5]], []⟩ : Rstrings).Read 2).st = ⟨1, 0, 0, [[5]], []⟩ :=
  (rstrings_cursor_tracks_next_unread ⟨1, 0, 0, [[5]], []⟩ 2).2.2 (by decide)

/-- C6: an `Rchan.Read` that can copy at least one byte from the pending
string returns immediately with exactly that count and an ok status —
without receiving from the source channel — even when the buffer still
has room. -/
theorem rchan_partial_pending_immediate (rc : Rchan) (plen : Nat)
    (hp : rc.spos < rc.sCur.length) (h : 1 ≤ plen) :
    rc.Read plen = some ⟨min (rc.sCur.length - rc.spos) plen,
      (rc.sCur.drop rc.spos).take plen, false,
      ⟨rc.sCur, rc.spos + min (rc.sCur.length - rc.spos) plen, rc.chan, rc.closed⟩⟩ := by
  unfold Rchan.Read
  rw [if_neg (by omega : ¬ plen = 0)]
  rcases hc : rc.chan with _ | ⟨msg, rest⟩ <;>
    simp only [rchanLoop] <;>
    rw [if_pos (by omega : 0 < min (rc.sCur.length - rc.spos) plen)]

/-- C6 witness. -/
theorem rchan_partial_pending_immediate_witness :
    (⟨[7, 8, 9], 1, [], false⟩ : Rchan).Read 1
      = some ⟨1, [8], false, ⟨[7, 8, 9], 2, [], false⟩⟩ := by
  rw [rchan_partial_pending_immediate ⟨[7, 8, 9], 1, [], false⟩ 1 (by decide) (by decide)]
  decide

/-- C7: a `Read` observing the source channel closed returns
`(0, end-of-stream)` and leaves the reader exhausted; an exhausted reader
answers every later non-empty `Read` with `(0, end-of-stream)` and stays
exhausted — the condition is permanent. -/
theorem rchan_channel_closed_terminal :
    (∀ (rc : Rchan) (plen : Nat) (r : RchanResult),
        rc.Read plen = some r → r.eof = true →
        r.n = 0 ∧ r.out = [] ∧ r.st.exhausted)
    ∧ (∀ (rc : Rchan) (plen : Nat), rc.exhausted → 1 ≤ plen →
        rc.Read plen = some ⟨0, [], true, ⟨[], rc.spos, [], true⟩⟩
        ∧ Rchan.exhausted ⟨[], rc.spos, [], true⟩) := by
  constructor
  · intro rc plen r hr heof
    unfold Rchan.Read at hr
    by_cases h0 : plen = 0
    · rw [if_pos h0] at hr
      simp only [Option.some.injEq] at hr
      subst hr
      simp at heof
    · rw [if_neg h0] at hr
      obtain ⟨he, _⟩ := rchanLoop_spec rc.chan rc.sCur rc.spos rc.closed plen r hr
      obtain ⟨w1, w2, w3, w4, w5⟩ := he heof
      exact ⟨w1, w2, w3, w4, w5⟩
  · intro rc plen hex hplen
    obtain ⟨h1, h2, h3⟩ := hex
    refine ⟨?_, rfl, rfl, rfl⟩
    unfold Rchan.Read
    rw [if_neg (by omega : ¬ plen = 0), h1, h2, h3]
    simp [rchanLoop]

/-- C7 witness. -/
theorem rchan_channel_closed_terminal_witness :
    ((NewChan [] true).Read 1 = some ⟨0, [], true, ⟨[], 0, [], true⟩⟩)
    ∧ (0 = 0 ∧ ([] : GoStr) = [] ∧ (⟨[], 0, [], true⟩ : Rchan).exhausted) := by
  constructor
  · exact (rchan_channel_closed_terminal.2 (NewChan [] true) 1 (by decide) (by decide)).1
  · exact rchan_channel_closed_terminal.1 (NewChan [] true) 1 ⟨0, [], true, ⟨[], 0, [], true⟩⟩
      (by decide) (by decide)

/-- C10: on a non-empty buffer, each reader reports end-of-stream exactly
when it wrote zero bytes: never `(0, ok)`, never a positive count with
end-of-stream. -/
theorem read_eof_iff_nothing_written :
    (∀ (m : Rstrings) (plen : Nat), 1 ≤ plen →
        ((m.Read plen).eof = true ↔ (m.Read plen).n = 0))
    ∧ (∀ (rc : Rchan) (plen : Nat) (r : RchanResult),
        1 ≤ plen → rc.Read plen = some r →
        (r.eof = true ↔ r.n = 0)) := by
  constructor
  · intro m plen h
    have h0 : plen ≠ 0 := Nat.one_le_iff_ne_zero.mp h
    obtain ⟨_, _, _, s4, s5, _, _, _⟩ := Read_spec m plen h0
    rw [s5, s4, List.length_eq_zero]
  · intro rc plen r h hr
    unfold Rchan.Read at hr
    rw [if_neg (by omega : ¬ plen = 0)] at hr
    obtain ⟨he, hne⟩ := rchanLoop_spec rc.chan rc.sCur rc.spos rc.closed plen r hr
    constructor
    · intro heof
      exact (he heof).1
    · intro hn
      rcases Bool.eq_false_or_eq_true r.eof with hf | hf
      · exact hf
      · have := hne hf
        omega

/-- C10 witness. -/
theorem read_eof_iff_nothing_written_witness :
    (((NewRstrings [[1]] []).Read 1).eof = true ↔ ((NewRstrings [[1]] []).Read 1).n = 0)
    ∧ (((⟨0, [], true, ⟨[], 0, [], true⟩⟩ : RchanResult).eof = true)
        ↔ (⟨0, [], true, ⟨[], 0, [], true⟩⟩ : RchanResult).n = 0) := by
  constructor
  · exact read_eof_iff_nothing_written.1 (NewRstrings [[1]] []) 1 (by decide)
  · exact read_eof_iff_nothing_written.2 (NewChan [] true) 1
      ⟨0, [], true, ⟨[], 0, [], true⟩⟩ (by decide) (by decide)

/-!
## Lemmas about the capture session
-/

lemma inv_init (chunks : List GoStr) : SessionInv chunks.flatten (initConfig chunks) := by
  constructor <;> simp [initConfig]

lemma inv_step {B : GoStr} {c c2 : Config} (hinv : SessionInv B c) (hstep : Step c c2) :
    SessionInv B c2 := by
  cases hstep with
  | write ch rest h1 h2 =>
      refine ⟨?_, hinv.cw1, hinv.cw2, hinv.cw3, ?_, hinv.wc, hinv.osfInv, ?_,
        hinv.bufFull, hinv.dc, hinv.relayLate, hinv.emptyCase, hinv.earlyRelay,
        hinv.lateRelay, hinv.oc⟩
      · have h := hinv.conserv
        rw [h2] at h
        simp only [List.flatten_cons, List.append_assoc] at h ⊢
        exact h
      · intro hne
        exact absurd h1 hne
      · intro hcp
        have h8 := hinv.copyPre hcp
        have h6 := hinv.wc.mp h8.2
        have hw := hinv.cw1.mp (Or.inl h1)
        rw [hw] at h6
        simp at h6
  | writeDone h1 h2 =>
      have hpw : c.pipe = .wait1 := hinv.cw1.mp (Or.inl h1)
      refine ⟨hinv.conserv, ?_, ?_, ?_, fun _ => h2, hinv.wc, hinv.osfInv,
        hinv.copyPre, hinv.bufFull, hinv.dc, hinv.relayLate, hinv.emptyCase,
        hinv.earlyRelay, hinv.lateRelay, hinv.oc⟩
      · exact ⟨fun _ => hpw, fun _ => Or.inr rfl⟩
      · constructor
        · intro hx; simp at hx
        · intro hx; rw [hpw] at hx; simp at hx
      · constructor
        · intro hx; simp at hx
        · intro hx; rw [hpw] at hx; simp at hx
  | stop1 h1 h2 =>
      have hwf : c.wrtClosed = false := by
        rcases Bool.eq_false_or_eq_true c.wrtClosed with hw | hw
        · have hx := hinv.wc.mp hw; rw [h2] at hx; simp at hx
        · exact hw
      refine ⟨hinv.conserv, ?_, ?_, ?_, fun _ => hinv.twEmpty (by rw [h1]; simp), ?_,
        ?_, hinv.copyPre, hinv.bufFull, hinv.dc, hinv.relayLate, hinv.emptyCase,
        hinv.earlyRelay, hinv.lateRelay, hinv.oc⟩
      · exact ⟨fun hx => by simp at hx, fun hx => by simp at hx⟩
      · exact ⟨fun _ => Or.inl rfl, fun _ => rfl⟩
      · exact ⟨fun hx => by simp at hx, fun hx => by simp at hx⟩
      · constructor
        · intro hw; rw [hw] at hwf; simp at hwf
        · intro hx; simp at hx
      · constructor
        · intro ho; have hx := hinv.osfInv.mp ho; rw [h2] at hx; simp at hx
        · intro hx; simp at hx
  | closeWrt h =>
      have hcs : c.caller = .send2 := hinv.cw2.mpr (Or.inl h)
      refine ⟨hinv.conserv, ?_, ?_, ?_, fun _ => hinv.twEmpty (by rw [hcs]; simp), ?_,
        ?_, ?_, hinv.bufFull, hinv.dc, hinv.relayLate, hinv.emptyCase,
        hinv.earlyRelay, hinv.lateRelay, hinv.oc⟩
      · constructor
        · intro hx; have hy := hinv.cw1.mp hx; rw [h] at hy; simp at hy
        · intro hx; simp at hx
      · exact ⟨fun _ => Or.inr (Or.inl rfl), fun _ => hcs⟩
      · constructor
        · intro hx; rw [hcs] at hx; simp at hx
        · intro hx; simp at hx
      · exact ⟨fun _ => Or.inl rfl, fun _ => rfl⟩
      · constructor
        · intro ho; have hx := hinv.osfInv.mp ho; rw [h] at hx; simp at hx
        · intro hx; simp at hx
      · intro hcp
        exact ⟨(hinv.copyPre hcp).1, rfl⟩
  | restoreOsf h =>
      have hcs : c.caller = .send2 := hinv.cw2.mpr (Or.inr (Or.inl h))
      refine ⟨hinv.conserv, ?_, ?_, ?_, fun _ => hinv.twEmpty (by rw [hcs]; simp), ?_,
        ?_, hinv.copyPre, hinv.bufFull, hinv.dc, hinv.relayLate, hinv.emptyCase,
        hinv.earlyRelay, hinv.lateRelay, hinv.oc⟩
      · constructor
        · intro hx; have hy := hinv.cw1.mp hx; rw [h] at hy; simp at hy
        · intro hx; simp at hx
      · exact ⟨fun _ => Or.inr (Or.inr rfl), fun _ => hcs⟩
      · constructor
        · intro hx; rw [hcs] at hx; simp at hx
        · intro hx; simp at hx
      · exact ⟨fun _ => Or.inr (Or.inl rfl), fun _ => hinv.wc.mpr (Or.inl h)⟩
      · exact ⟨fun _ => Or.inl rfl, fun _ => rfl⟩
  | stop2 h1 h2 =>
      refine ⟨hinv.conserv, ?_, ?_, ?_, fun _ => hinv.twEmpty (by rw [h1]; simp), ?_,
        ?_, hinv.copyPre, hinv.bufFull, hinv.dc, hinv.relayLate, hinv.emptyCase,
        hinv.earlyRelay, hinv.lateRelay, hinv.oc⟩
      · exact ⟨fun hx => by simp at hx, fun hx => by simp at hx⟩
      · exact ⟨fun hx => by simp at hx, fun hx => by simp at hx⟩
      · exact ⟨fun _ => rfl, fun _ => Or.inl rfl⟩
      · exact ⟨fun _ => Or.inr (Or.inr rfl), fun _ => hinv.wc.mpr (Or.inr (Or.inl h2))⟩
      · exact ⟨fun _ => Or.inr rfl, fun _ => hinv.osfInv.mpr (Or.inl h2)⟩
  | ctrlDisc h =>
      have hpd : c.pipe = .done := hinv.cw3.mp (Or.inl h)
      refine ⟨hinv.conserv, ?_, ?_, ?_, fun _ => hinv.twEmpty (by rw [h]; simp),
        hinv.wc, hinv.osfInv, hinv.copyPre, hinv.bufFull, hinv.dc, hinv.relayLate,
        hinv.emptyCase, hinv.earlyRelay, hinv.lateRelay, hinv.oc⟩
      · constructor
        · intro hx; simp at hx
        · intro hx; rw [hpd] at hx; simp at hx
      · constructor
        · intro hx; simp at hx
        · intro hx; rw [hpd] at hx; simp at hx
      · exact ⟨fun _ => hpd, fun _ => Or.inr rfl⟩
  | copyChunk h1 h2 =>
      refine ⟨?_, hinv.cw1, hinv.cw2, hinv.cw3, hinv.twEmpty, hinv.wc, hinv.osfInv,
        fun hcp => absurd h1 hcp, fun hcp => absurd h1 hcp, hinv.dc, hinv.relayLate,
        hinv.emptyCase, hinv.earlyRelay, hinv.lateRelay, hinv.oc⟩
      · have h := hinv.conserv
        simp only [List.append_assoc, List.append_nil] at h ⊢
        exact h
  | copyEOF h1 h2 h3 =>
      have hbufB : c.buf = B := by
        have hpipe := hinv.wc.mp h3
        have hcw : ¬ (c.caller = .writing ∨ c.caller = .send1) := by
          intro hc
          have hx := hinv.cw1.mp hc
          rw [hx] at hpipe
          simp at hpipe
        have htw : c.toWrite = [] := hinv.twEmpty (fun hw => hcw (Or.inl hw))
        have h := hinv.conserv
        rw [h2, htw] at h
        simpa using h
      refine ⟨hinv.conserv, hinv.cw1, hinv.cw2, hinv.cw3, hinv.twEmpty, hinv.wc,
        hinv.osfInv, fun _ => ⟨h2, h3⟩, fun _ => hbufB, ?_, ?_, hinv.emptyCase, ?_,
        ?_, hinv.oc⟩
      · constructor
        · intro hd; have hx := hinv.dc.mp hd; rw [h1] at hx; simp at hx
        · intro hx; simp at hx
      · intro hr; have hx := hinv.relayLate hr; rw [h1] at hx; simp at hx
      · exact fun hB _ => hinv.earlyRelay hB (Or.inl h1)
      · intro hB hc; rcases hc with hc | hc <;> simp at hc
  | closeRdr h =>
      refine ⟨hinv.conserv, hinv.cw1, hinv.cw2, hinv.cw3, hinv.twEmpty, hinv.wc,
        hinv.osfInv, fun _ => hinv.copyPre (by rw [h]; simp),
        fun _ => hinv.bufFull (by rw [h]; simp), ?_, ?_, hinv.emptyCase, ?_, ?_,
        hinv.oc⟩
      · constructor
        · intro hd; have hx := hinv.dc.mp hd; rw [h] at hx; simp at hx
        · intro hx; simp at hx
      · intro hr; have hx := hinv.relayLate hr; rw [h] at hx; simp at hx
      · exact fun hB _ => hinv.earlyRelay hB (Or.inr (Or.inl h))
      · intro hB hc; rcases hc with hc | hc <;> simp at hc
  | sendPayload h1 h2 h3 =>
      have hbufB : c.buf = B := hinv.bufFull (by rw [h1]; simp)
      refine ⟨hinv.conserv, hinv.cw1, hinv.cw2, hinv.cw3, hinv.twEmpty, hinv.wc,
        hinv.osfInv, fun _ => hinv.copyPre (by rw [h1]; simp), fun _ => hbufB, ?_,
        ?_, ?_, ?_, ?_, ?_⟩
      · constructor
        · intro hd; have hx := hinv.dc.mp hd; rw [h1] at hx; simp at hx
        · intro hx; simp at hx
      · intro hr; rcases hr with hr | hr <;> simp at hr
      · intro hB; exact absurd (hbufB.trans hB) h2
      · intro hB hc; rcases hc with hc | hc | hc <;> simp at hc
      · intro hB _
        exact Or.inl ⟨by rw [hbufB], (hinv.earlyRelay hB (Or.inr (Or.inr h1))).2⟩
      · constructor
        · intro ho; have hx := hinv.oc.mp ho; rw [h3] at hx; simp at hx
        · intro hx; simp at hx
  | skipSend h1 h2 =>
      have hbufB : c.buf = B := hinv.bufFull (by rw [h1]; simp)
      have hB0 : B = [] := by rw [← hbufB]; exact h2
      refine ⟨hinv.conserv, hinv.cw1, hinv.cw2, hinv.cw3, hinv.twEmpty, hinv.wc,
        hinv.osfInv, fun _ => hinv.copyPre (by rw [h1]; simp), fun _ => hbufB, ?_,
        ?_, hinv.emptyCase, ?_, fun hB _ => absurd hB0 hB, hinv.oc⟩
      · constructor
        · intro hd; have hx := hinv.dc.mp hd; rw [h1] at hx; simp at hx
        · intro hx; simp at hx
      · intro hr; have hx := hinv.relayLate hr; rw [h1] at hx; simp at hx
      · intro hB hc; rcases hc with hc | hc | hc <;> simp at hc
  | dataDisc h =>
      refine ⟨hinv.conserv, hinv.cw1, hinv.cw2, hinv.cw3, hinv.twEmpty, hinv.wc,
        hinv.osfInv, fun _ => hinv.copyPre (by rw [h]; simp),
        fun _ => hinv.bufFull (by rw [h]; simp), ⟨fun _ => rfl, fun _ => rfl⟩,
        fun _ => rfl, hinv.emptyCase, ?_,
        fun hB _ => hinv.lateRelay hB (Or.inl h), hinv.oc⟩
      · intro hB hc; rcases hc with hc | hc | hc <;> simp at hc
  | relayFwd s h =>
      have hBne : B ≠ [] := fun hB => (hinv.emptyCase hB).1 s h
      have hcd : c.copy = .disc ∨ c.copy = .done := by
        cases hcp : c.copy with
        | copying =>
            have hx := (hinv.earlyRelay hBne (Or.inl hcp)).1
            rw [h] at hx; simp at hx
        | closeRdr =>
            have hx := (hinv.earlyRelay hBne (Or.inr (Or.inl hcp))).1
            rw [h] at hx; simp at hx
        | sending =>
            have hx := (hinv.earlyRelay hBne (Or.inr (Or.inr hcp))).1
            rw [h] at hx; simp at hx
        | disc => exact Or.inl rfl
        | done => exact Or.inr rfl
      have hsB : s = B ∧ c.outTrace = [] := by
        rcases hinv.lateRelay hBne hcd with ⟨hf, ht⟩ | ⟨hnf, _⟩
        · rw [h] at hf; simp at hf; exact ⟨hf, ht⟩
        · exact absurd h (hnf s)
      refine ⟨hinv.conserv, hinv.cw1, hinv.cw2, hinv.cw3, hinv.twEmpty, hinv.wc,
        hinv.osfInv, hinv.copyPre, hinv.bufFull, hinv.dc, ?_,
        fun hB => absurd hB hBne, ?_, ?_, ?_⟩
      · intro hr; rcases hr with hr | hr <;> simp at hr
      · intro hB hc
        have hx := (hinv.earlyRelay hB hc).1
        rw [h] at hx; simp at hx
      · intro hB _
        refine Or.inr ⟨fun s2 hx => by simp at hx, ?_⟩
        show c.outTrace ++ [s] = [B]
        rw [hsB.2, hsB.1]; rfl
      · constructor
        · intro ho; have hx := hinv.oc.mp ho; rw [h] at hx; simp at hx
        · intro hx; simp at hx
  | relayClosed h1 h2 =>
      have hcd : c.copy = .done := hinv.dc.mp h2
      refine ⟨hinv.conserv, hinv.cw1, hinv.cw2, hinv.cw3, hinv.twEmpty, hinv.wc,
        hinv.osfInv, hinv.copyPre, hinv.bufFull, hinv.dc, fun _ => hcd, ?_, ?_, ?_,
        ?_⟩
      · intro hB; exact ⟨fun s hx => by simp at hx, (hinv.emptyCase hB).2⟩
      · intro hB hc; rcases hc with hc | hc | hc <;> (rw [hcd] at hc; simp at hc)
      · intro hB hc
        rcases hinv.lateRelay hB hc with ⟨hf, _⟩ | ⟨_, ht⟩
        · rw [h1] at hf; simp at hf
        · exact Or.inr ⟨fun s hx => by simp at hx, ht⟩
      · constructor
        · intro ho; have hx := hinv.oc.mp ho; rw [h1] at hx; simp at hx
        · intro hx; simp at hx
  | relayClose h =>
      have hcd : c.copy = .done := hinv.relayLate (Or.inl h)
      refine ⟨hinv.conserv, hinv.cw1, hinv.cw2, hinv.cw3, hinv.twEmpty, hinv.wc,
        hinv.osfInv, hinv.copyPre, hinv.bufFull, hinv.dc, fun _ => hcd, ?_, ?_, ?_,
        ⟨fun _ => rfl, fun _ => rfl⟩⟩
      · intro hB; exact ⟨fun s hx => by simp at hx, (hinv.emptyCase hB).2⟩
      · intro hB hc; rcases hc with hc | hc | hc <;> (rw [hcd] at hc; simp at hc)
      · intro hB hc
        rcases hinv.lateRelay hB hc with ⟨hf, _⟩ | ⟨_, ht⟩
        · rw [h] at hf; simp at hf
        · exact Or.inr ⟨fun s hx => by simp at hx, ht⟩

lemma inv_reachable {chunks : List GoStr} {c : Config} (h : Reachable chunks c) :
    SessionInv chunks.flatten c := by
  induction h with
  | refl => exact inv_init chunks
  | tail hsteps hstep ih => exact inv_step ih hstep

lemma session_progress {chunks : List GoStr} {c : Config} (h : Reachable chunks c)
    (hnd : ¬ c.terminated) : ∃ c2, Step c c2 := by
  have hinv := inv_reachable h
  cases hcal : c.caller with
  | writing =>
      cases htw : c.toWrite with
      | nil => exact ⟨_, Step.writeDone c hcal htw⟩
      | cons ch rest => exact ⟨_, Step.write c ch rest hcal htw⟩
  | send1 => exact ⟨_, Step.stop1 c hcal (hinv.cw1.mp (Or.inr hcal))⟩
  | send2 =>
      rcases hinv.cw2.mp hcal with hp | hp | hp
      · exact ⟨_, Step.closeWrt c hp⟩
      · exact ⟨_, Step.restoreOsf c hp⟩
      · exact ⟨_, Step.stop2 c hcal hp⟩
  | disc => exact ⟨_, Step.ctrlDisc c hcal⟩
  | done =>
      have hpd : c.pipe = .done := hinv.cw3.mp (Or.inr hcal)
      cases hcp : c.copy with
      | copying =>
          cases hbf : c.buffered with
          | nil =>
              exact ⟨_, Step.copyEOF c hcp hbf (hinv.wc.mpr (Or.inr (Or.inr hpd)))⟩
          | cons b bs => exact ⟨_, Step.copyChunk c hcp (by rw [hbf]; simp)⟩
      | closeRdr => exact ⟨_, Step.closeRdr c hcp⟩
      | sending =>
          cases hbuf : c.buf with
          | nil => exact ⟨_, Step.skipSend c hcp hbuf⟩
          | cons b bs =>
              have hBne : chunks.flatten ≠ [] := by
                have hb := hinv.bufFull (by rw [hcp]; simp)
                rw [hbuf] at hb
                intro hB
                rw [hB] at hb
                simp at hb
              have hrecv := (hinv.earlyRelay hBne (Or.inr (Or.inr hcp))).1
              exact ⟨_, Step.sendPayload c hcp (by rw [hbuf]; simp) hrecv⟩
      | disc => exact ⟨_, Step.dataDisc c hcp⟩
      | done =>
          have hdc : c.dataClosed = true := hinv.dc.mpr hcp
          cases hrel : c.relay with
          | recv => exact ⟨_, Step.relayClosed c hrel hdc⟩
          | fwd s => exact ⟨_, Step.relayFwd c s hrel⟩
          | close => exact ⟨_, Step.relayClose c hrel⟩
          | done => exact absurd (⟨hcal, hpd, hcp, hrel⟩ : c.terminated) hnd

lemma reach_cfgDone : Reachable chunksW cfgDone := by
  refine Relation.ReflTransGen.head (Step.write _ [65] [] rfl rfl) ?_
  refine Relation.ReflTransGen.head (Step.writeDone _ rfl rfl) ?_
  refine Relation.ReflTransGen.head (Step.stop1 _ rfl rfl) ?_
  refine Relation.ReflTransGen.head (Step.closeWrt _ rfl) ?_
  refine Relation.ReflTransGen.head (Step.restoreOsf _ rfl) ?_
  refine Relation.ReflTransGen.head (Step.stop2 _ rfl rfl) ?_
  refine Relation.ReflTransGen.head (Step.ctrlDisc _ rfl) ?_
  refine Relation.ReflTransGen.head (Step.copyChunk _ rfl (by decide)) ?_
  refine Relation.ReflTransGen.head (Step.copyEOF _ rfl rfl rfl) ?_
  refine Relation.ReflTransGen.head (Step.closeRdr _ rfl) ?_
  refine Relation.ReflTransGen.head (Step.sendPayload _ rfl (by decide) rfl) ?_
  refine Relation.ReflTransGen.head (Step.dataDisc _ rfl) ?_
  refine Relation.ReflTransGen.head (Step.relayFwd _ _ rfl) ?_
  refine Relation.ReflTransGen.head (Step.relayClosed _ rfl rfl) ?_
  refine Relation.ReflTransGen.head (Step.relayClose _ rfl) ?_
  exact Relation.ReflTransGen.refl

/-!
## Claim theorems for the capture subsystem
-/

/-- C1: in every reachable configuration in which the caller has completed
the second rendezvous send of `captureEnd` (and hence when `captureEnd`
has returned), the sink slot again holds the original file — the stop
function cannot return before the restore. -/
theorem stop_return_implies_sink_restored (chunks : List GoStr) (c : Config)
    (hr : Reachable chunks c)
    (hret : c.caller = .disc ∨ c.caller = .done) :
    c.osf = .original := by
  have hinv := inv_reachable hr
  exact hinv.osfInv.mpr (Or.inr (hinv.cw3.mp hret))

/-- C1 witness. -/
theorem stop_return_implies_sink_restored_witness : cfgDone.osf = FileVal.original :=
  stop_return_implies_sink_restored chunksW cfgDone reach_cfgDone (Or.inr rfl)

/-- C2: every reachable configuration in which all four tasks have
terminated has the output channel closed, having delivered exactly the
written bytes as a single payload when they are non-empty and no payload
at all when they are empty; and every non-terminated reachable
configuration can take a step (no deadlock), so under any fair scheduler
the session eventually reaches such a terminated configuration. -/
theorem capture_output_delivery (chunks : List GoStr) (c : Config)
    (hr : Reachable chunks c) :
    (c.terminated →
        c.outTrace = (if chunks.flatten = [] then [] else [chunks.flatten])
        ∧ c.outClosed = true)
    ∧ (¬ c.terminated → ∃ c2, Step c c2) := by
  constructor
  · intro ht
    obtain ⟨hcal, hpd, hcp, hrel⟩ := ht
    have hinv := inv_reachable hr
    constructor
    · by_cases hB : chunks.flatten = []
      · rw [if_pos hB]
        exact (hinv.emptyCase hB).2
      · rw [if_neg hB]
        rcases hinv.lateRelay hB (Or.inr hcp) with ⟨hf, _⟩ | ⟨_, ht2⟩
        · rw [hrel] at hf; simp at hf
        · exact ht2
    · exact hinv.oc.mpr hrel
  · exact session_progress hr

/-- C2 witness. -/
theorem capture_output_delivery_witness :
    cfgDone.outTrace = [[65]] ∧ cfgDone.outClosed = true := by
  have h := (capture_output_delivery chunksW cfgDone reach_cfgDone).1
    ⟨rfl, rfl, rfl, rfl⟩
  refine ⟨?_, h.2⟩
  rw [h.1]
  decide

/-- C3: when `os.Pipe()` fails, `FileCaptureStart` returns that very
error to its caller, launches no goroutine, leaves the sink slot
untouched, and creates no output channel — the whole state is unchanged. -/
theorem pipe_failure_synchronous_no_effects (ε : Type) (s : GoState) (e : ε) :
    FileCaptureStart ε s (.error e) = (s, some e)
    ∧ (FileCaptureStart ε s (.error e)).1.osf = s.osf
    ∧ (FileCaptureStart ε s (.error e)).1.goroutines = s.goroutines
    ∧ (FileCaptureStart ε s (.error e)).1.outChanMade = s.outChanMade :=
  ⟨rfl, rfl, rfl, rfl⟩
